import Mathlib

/-!
# Verification of the `dns_from_scratch` DNS codec

A shallow embedding of the repository's DNS wire-format codec
(`src/parse/parse.rs`, `src/dns/label.rs`, `src/dns/question.rs`,
`src/dns/answer.rs`) and proofs about it.

Modelling conventions:

* A Rust `Bytes` buffer (and a `String`'s UTF-8 content) is a `List Nat`
  of byte values.
* Fallible Rust code returning `anyhow::Result` is modelled with `RResult`;
  a Rust panic (e.g. the out-of-range assertion inside `bytes::Bytes::slice`
  or slice indexing `buf[i]`) is the distinct `RResult.crash` outcome, so a
  returned error (`Err`) and a panic are told apart.
* The Rust `HashMap<String, usize>` label map is modelled as an association
  list in insertion order; `insert` replaces the value of an existing key in
  place and appends fresh keys, and map iteration (used by the decoder's
  search of an offset value) walks the list in that order.
* Machine integers are `Nat` with masks (`&&& 0xffff` etc.) exactly where
  the source performs casts; signed 16-bit reads go through `Int`.
-/

/-- Outcome of fallible Rust code: `ok` a value, `err` a returned
`anyhow::Error` (the string is the message), or `crash` for a panic. -/
inductive RResult (α : Type) : Type
| ok (a : α)
| err (msg : String)
| crash (msg : String)
deriving DecidableEq, Repr

def RResult.bind {α β : Type} : RResult α → (α → RResult β) → RResult β
| .ok a, f => f a
| .err m, _ => .err m
| .crash m, _ => .crash m

def RResult.isOk {α : Type} : RResult α → Bool
| .ok _ => true
| _ => false

def RResult.isErr {α : Type} : RResult α → Bool
| .err _ => true
| _ => false

def RResult.isCrash {α : Type} : RResult α → Bool
| .crash _ => true
| _ => false

/-- `bytes::Bytes::slice(begin..end)`: panics (does not return `Err`) when
`begin > end` or `end > len`, otherwise yields the sub-buffer. -/
def Bytes.slice (buf : List Nat) (b e : Nat) : RResult (List Nat) :=
if b ≤ e ∧ e ≤ buf.length then .ok ((buf.drop b).take (e - b)) else
.crash "range out of bounds"

/-- Indexing `buf[i]` on a byte buffer: panics when out of bounds. -/
def Bytes.index (buf : List Nat) (i : Nat) : RResult Nat :=
match buf.get? i with
| some b => .ok b
| none => .crash "index out of bounds"

/-- `parse_u8` from `src/parse/parse.rs`: one byte at `pos`, new cursor
`pos + 1`. The bounds check lives in `Bytes::slice`, which panics. -/
def parse_u8 (buf : List Nat) (pos : Nat) : RResult (Nat × Nat) :=
(Bytes.slice buf pos (pos + 1)).bind fun s =>
match s with
| [b] => .ok (pos + 1, b)
| _ => .err "could not convert slice to array"

/-- `parse_u16` from `src/parse/parse.rs`: big-endian `u16` at `pos`, new
cursor `pos + 2`. -/
def parse_u16 (buf : List Nat) (pos : Nat) : RResult (Nat × Nat) :=
(Bytes.slice buf pos (pos + 2)).bind fun s =>
match s with
| [b0, b1] => .ok (pos + 2, b0 * 256 + b1)
| _ => .err "could not convert slice to array"

/-- `parse_u32` from `src/parse/parse.rs`: big-endian `u32` at `pos`, new
cursor `pos + 4`. -/
def parse_u32 (buf : List Nat) (pos : Nat) : RResult (Nat × Nat) :=
(Bytes.slice buf pos (pos + 4)).bind fun s =>
match s with
| [b0, b1, b2, b3] => .ok (pos + 4, ((b0 * 256 + b1) * 256 + b2) * 256 + b3)
| _ => .err "could not convert slice to array"

/-- The leading-byte table of RFC 3629, as enforced by Rust's
`String::from_utf8`: for a byte starting a sequence, the number of
continuation bytes that must follow and the accepted range of the first of
them (subsequent continuation bytes are always `0x80`–`0xbf`); `none` for
a byte that cannot start a sequence. -/
def utf8Class (b : Nat) : Option (Nat × Nat × Nat) :=
if b < 0x80 then some (0, 0, 0)
else if 0xc2 ≤ b ∧ b ≤ 0xdf then some (1, 0x80, 0xbf)
else if b = 0xe0 then some (2, 0xa0, 0xbf)
else if (0xe1 ≤ b ∧ b ≤ 0xec) ∨ b = 0xee ∨ b = 0xef then some (2, 0x80, 0xbf)
else if b = 0xed then some (2, 0x80, 0x9f)
else if b = 0xf0 then some (3, 0x90, 0xbf)
else if 0xf1 ≤ b ∧ b ≤ 0xf3 then some (3, 0x80, 0xbf)
else if b = 0xf4 then some (3, 0x80, 0x8f)
else none

/-- UTF-8 validation walk: `k` pending continuation bytes, the next one
constrained to `lo`–`hi`. -/
def isUtf8Go : List Nat → Nat → Nat → Nat → Bool
| [], 0, _, _ => true
| [], _ + 1, _, _ => false
| b :: rest, 0, _, _ =>
  match utf8Class b with
  | some (k, lo, hi) => isUtf8Go rest k lo hi
  | none => false
| b :: rest, k + 1, lo, hi =>
  if lo ≤ b ∧ b ≤ hi then isUtf8Go rest k 0x80 0xbf else false

/-- UTF-8 validity of a byte sequence, as checked by Rust's
`String::from_utf8`. -/
def isUtf8 (l : List Nat) : Bool := isUtf8Go l 0 0 0

/-- `parse_string` from `src/parse/parse.rs`: a `u16` big-endian length
prefix, an `ensure!(length <= 0x3fff)` returning an error, then the body
sliced out of the buffer (panicking if it runs past the end) and validated
as UTF-8 (an error if not). The "string" is its byte content. -/
def parse_string (buf : List Nat) (pos : Nat) : RResult (Nat × List Nat) :=
(parse_u16 buf pos).bind fun cl =>
if cl.2 ≤ 0x3fff then
  (Bytes.slice buf cl.1 (cl.1 + cl.2)).bind fun body =>
  if isUtf8 body then .ok (cl.1 + cl.2, body) else .err "invalid utf-8"
else .err "String too large"

/-- `parse_data` from `src/parse/parse.rs`: `len` raw bytes at `pos`
(panicking via `Bytes::slice` if they run past the end). -/
def parse_data (buf : List Nat) (pos len : Nat) : RResult (Nat × List Nat) :=
(Bytes.slice buf pos (pos + len)).bind fun s => .ok (pos + len, s)

/-! ## The label map (`HashMap<String, usize>` threaded by `&mut`) -/

/-- The compression table: suffix string (as UTF-8 bytes) to byte offset,
kept in insertion order. -/
abbrev LabelMap : Type := List (List Nat × Nat)

/-- `HashMap::get(&k)`: the value bound to `k`, if any. -/
def hmGet (m : LabelMap) (k : List Nat) : Option Nat :=
match m.find? (fun p => p.1 = k) with
| some p => some p.2
| none => none

/-- `HashMap::insert(k, v)`: replaces the value of an existing binding,
otherwise adds a new one. -/
def hmInsert (m : LabelMap) (k : List Nat) (v : Nat) : LabelMap :=
match m with
| [] => [(k, v)]
| p :: rest => if p.1 = k then (k, v) :: rest else p :: hmInsert rest k v

/-- `label_map.iter().find(|(_, o)| **o == offset)`: the first entry (in
the modelled iteration order) whose stored offset equals `off`. -/
def hmFindByOffset (m : LabelMap) (off : Nat) : Option (List Nat × Nat) :=
m.find? (fun p => p.2 = off)

/-- `labels.join(".")` on UTF-8 byte content (`.` is byte 46). -/
def joinDot (ls : List (List Nat)) : List Nat :=
match ls with
| [] => []
| [l] => l
| l :: rest => l ++ 46 :: joinDot rest

/-- Rust `str::split('.')` on UTF-8 byte content: splits at every byte 46,
never returns an empty list (splitting `""` gives `[""]`). -/
def splitDot (s : List Nat) : List (List Nat) :=
match s with
| [] => [[]]
| b :: rest =>
  if b = 46 then [] :: splitDot rest
  else
    match splitDot rest with
    | r :: rs => (b :: r) :: rs
    | [] => [[b]]

/-! ## The domain codec (`src/dns/label.rs`) -/

/-- A domain: an ordered list of labels, each label the UTF-8 byte content
of its `String`. -/
structure Domain : Type where
  labels : List (List Nat)
deriving DecidableEq, Repr

/-- The three byte-pattern classes of `LabelByte` in `src/dns/label.rs`. -/
inductive LabelByte : Type
| Pointer
| Null
| Length
deriving DecidableEq, Repr

/-- `LabelByte::from_byte`: reads a full big-endian `u16` at `pos` and
classifies it: `0x0000` is `Null`, a value with top two bits `11` is
`Pointer`, anything else is `Length`. -/
def LabelByte.from_byte (buf : List Nat) (pos : Nat) : RResult LabelByte :=
(parse_u16 buf pos).bind fun cb =>
if cb.2 = 0 then .ok .Null
else if (cb.2 >>> 14) &&& 3 = 3 then .ok .Pointer
else .ok .Length

/-- `create_and_add_pointer` from `src/dns/label.rs`: truncates the offset
to 16 bits, ORs in the `11` tag bits and emits the two pointer bytes. It
performs no range check on the offset and never fails. -/
def create_and_add_pointer (offset : Nat) (buf : List Nat) : RResult (List Nat) :=
.ok (buf ++ [(((offset &&& 0xffff) ||| 0xc000) >>> 8) &&& 0xff,
  ((offset &&& 0xffff) ||| 0xc000) &&& 0xff])

/-- The loop body of `Domain::encode`, recursing over the remaining labels.
At each step the candidate suffix is the dot-join of the remaining labels;
a cache hit emits a pointer and stops, a cache miss records the suffix at
`pos + buf.len()`, emits a 2-byte length (`ensure!(len < 0xcfff)`, masked
with `0xcfff`) and the label bytes, and after the last label the 2-byte
null terminator. Returns the produced bytes and the updated map (which,
mirroring `&mut`, is updated even on the error path). -/
def Domain.encodeGo (rem : List (List Nat)) (pos : Nat) (buf : List Nat)
    (m : LabelMap) : RResult (List Nat) × LabelMap :=
match rem with
| [] => (.ok buf, m)
| l :: rest =>
  match hmGet m (joinDot (l :: rest)) with
  | some offset =>
    match create_and_add_pointer offset buf with
    | .ok buf' => (.ok buf', m)
    | .err e => (.err e, m)
    | .crash e => (.crash e, m)
  | none =>
    let m' := hmInsert m (joinDot (l :: rest)) (pos + buf.length)
    if l.length < 0xcfff then
      let len := l.length &&& 0xcfff
      let withLabel := buf ++ [(len >>> 8) &&& 0xff, len &&& 0xff] ++ l
      let buf' := if rest = [] then withLabel ++ [0, 0] else withLabel
      Domain.encodeGo rest pos buf' m'
    else (.err "label should be smaller than 0xcfff", m')

/-- `Domain::encode` from `src/dns/label.rs`. -/
def Domain.encode (d : Domain) (pos : Nat) (m : LabelMap) :
    RResult (List Nat) × LabelMap :=
Domain.encodeGo d.labels pos [] m

/-- The map-update loop run by `Domain::decode` on hitting the null
terminator: for each locally read label, the dot-join of the labels from it
to the end is bound to that label's own offset, only if absent. -/
def updateMapNull (offsets : List (List Nat × Nat)) (m : LabelMap) : LabelMap :=
match offsets with
| [] => m
| (s, off) :: rest =>
  let x := joinDot (s :: rest.map (fun p => p.1))
  let m' := if (hmGet m x).isNone then hmInsert m x off else m
  updateMapNull rest m'

/-- The map-update loop run by `Domain::decode` on hitting a pointer whose
target suffix is `dom`: like `updateMapNull`, but each key is extended with
`"." ++ dom`. -/
def updateMapPtr (offsets : List (List Nat × Nat)) (dom : List Nat)
    (m : LabelMap) : LabelMap :=
match offsets with
| [] => m
| (s, off) :: rest =>
  let x := joinDot (s :: rest.map (fun p => p.1)) ++ 46 :: dom
  let m' := if (hmGet m x).isNone then hmInsert m x off else m
  updateMapPtr rest dom m'

/-- The loop of `Domain::decode`: classify the bytes at the cursor, stop on
null (cursor past the 2-byte null) or pointer (looked up by offset value in
the map; absent offset is an error; the suffix's dot-split labels are
appended and the pointer ends the domain), read a length-prefixed label and
continue otherwise. `res` and `offsets` are the loop's accumulators; `fuel`
only bounds the recursion and is never exhausted from `Domain.decode`
(every continuing iteration moves the cursor at least 3 bytes forward
within the buffer). -/
def Domain.decodeGo (buf : List Nat) (fuel : Nat) (current : Nat)
    (res : List (List Nat)) (offsets : List (List Nat × Nat)) (m : LabelMap) :
    RResult (Nat × List (List Nat)) × LabelMap :=
match fuel with
| 0 => (.crash "out of fuel", m)
| fuel + 1 =>
  match LabelByte.from_byte buf current with
  | .err e => (.err e, m)
  | .crash e => (.crash e, m)
  | .ok .Null => (.ok (current + 2, res), updateMapNull offsets m)
  | .ok .Pointer =>
    match parse_u16 buf current with
    | .err e => (.err e, m)
    | .crash e => (.crash e, m)
    | .ok (c, pointer) =>
      let offset := pointer &&& 0x3fff
      match hmFindByOffset m offset with
      | none => (.err "Encountered a label with an offset not located in the map", m)
      | some d =>
        let m' := updateMapPtr offsets d.1 m
        (.ok (c, res ++ splitDot d.1), m')
  | .ok .Length =>
    match parse_string buf current with
    | .err e => (.err e, m)
    | .crash e => (.crash e, m)
    | .ok (c, s) =>
      Domain.decodeGo buf fuel c (res ++ [s]) (offsets ++ [(s, current)]) m

/-- `Domain::decode` from `src/dns/label.rs`. The result value is the new
cursor and the decoded label list. -/
def Domain.decode (buf : List Nat) (pos : Nat) (m : LabelMap) :
    RResult (Nat × List (List Nat)) × LabelMap :=
Domain.decodeGo buf (buf.length + 1) pos [] [] m

/-! ## Record types and the question codec (`src/dns/question.rs`) -/

/-- The closed record-type enum of `src/dns/question_type.rs` /
`src/dns/question.rs`. -/
inductive QuestionType : Type
| A | NS | MD | MF | CNAME | SOA | MB | MG | MR | NULL | WKS | PTR
| HINFO | MINFO | MX | TXT
deriving DecidableEq, Repr

/-- The numeric code of a record type (`TryInto<u16>`, total on the closed
enum). -/
def QuestionType.toNum : QuestionType → Nat
| .A => 1 | .NS => 2 | .MD => 3 | .MF => 4 | .CNAME => 5 | .SOA => 6
| .MB => 7 | .MG => 8 | .MR => 9 | .NULL => 10 | .WKS => 11 | .PTR => 12
| .HINFO => 13 | .MINFO => 14 | .MX => 15 | .TXT => 16

/-- `TryInto<QuestionType> for i16` from `src/dns/question.rs`: only the
codes 1–16 convert; anything else is an error. -/
def QuestionType.fromI16 (v : Int) : RResult QuestionType :=
if v = 1 then .ok .A else if v = 2 then .ok .NS else if v = 3 then .ok .MD
else if v = 4 then .ok .MF else if v = 5 then .ok .CNAME
else if v = 6 then .ok .SOA else if v = 7 then .ok .MB
else if v = 8 then .ok .MG else if v = 9 then .ok .MR
else if v = 10 then .ok .NULL else if v = 11 then .ok .WKS
else if v = 12 then .ok .PTR else if v = 13 then .ok .HINFO
else if v = 14 then .ok .MINFO else if v = 15 then .ok .MX
else if v = 16 then .ok .TXT
else .err "Invalid QuestionType"

/-- Two big-endian bytes read as a signed 16-bit value
(`i16::from_be_bytes`). -/
def i16FromBeBytes (b0 b1 : Nat) : Int :=
let v := (b0 % 256) * 256 + b1 % 256
if v < 0x8000 then (v : Int) else (v : Int) - 0x10000

/-- A `LabelSet` from `src/dns/question.rs`: labels as plain strings
(modelled by their UTF-8 byte content). -/
structure LabelSet : Type where
  labels : List (List Nat)
deriving DecidableEq, Repr

/-- The loop of `LabelSet::encode`: one length byte per label
(`label.len().try_into::<u8>()?`, an error above 255) followed by the label
bytes. -/
def LabelSet.encodeGo (ls : List (List Nat)) (buf : List Nat) :
    RResult (List Nat) :=
match ls with
| [] => .ok buf
| l :: rest =>
  if l.length ≤ 255 then LabelSet.encodeGo rest (buf ++ l.length :: l)
  else .err "out of range integral type conversion attempted"

/-- `LabelSet::encode` from `src/dns/question.rs`: length-byte-prefixed
labels followed by a single terminating `0x00` byte. -/
def LabelSet.encode (s : LabelSet) : RResult (List Nat) :=
(LabelSet.encodeGo s.labels []).bind fun b => .ok (b ++ [0])

/-- A question record: name, type and (signed 16-bit) class. -/
structure DnsQuestion : Type where
  name : LabelSet
  qtype : QuestionType
  qclass : Int
deriving DecidableEq, Repr

/-- The label-reading loop of `parse_question`: while the byte at the
cursor (panicking if out of bounds) is nonzero, treat it as a length,
slice out that many bytes (panicking if out of range), convert them from
UTF-8 (an error if invalid) and move past them. Stops at a zero byte,
returning the cursor (on the zero byte) and the labels. -/
def parse_questionGo (buf : List Nat) (fuel current : Nat)
    (labels : List (List Nat)) : RResult (Nat × List (List Nat)) :=
match fuel with
| 0 => (.crash "out of fuel")
| fuel + 1 =>
  match Bytes.index buf current with
  | .err e => .err e
  | .crash e => .crash e
  | .ok b =>
    if b = 0 then .ok (current, labels)
    else
      (Bytes.slice buf (current + 1) (current + 1 + b)).bind fun lab =>
      if isUtf8 lab then parse_questionGo buf fuel (current + 1 + b) (labels ++ [lab])
      else .err "invalid utf-8"

/-- `parse_question` from `src/dns/question.rs`: checks that some null byte
exists in the buffer and that the buffer is nonempty, reads the
single-byte-length labels up to the null byte, then the 2-byte type
(validated against the closed enum) and 2-byte class, both as `i16` via
panicking slice indexing. Returns the question and the **absolute** cursor
one past the class field. -/
def parse_question (buf : List Nat) (start : Nat) :
    RResult (DnsQuestion × Nat) :=
if (buf.find? (fun x => x = 0)).isSome then
  if buf.length > 0 then
    (parse_questionGo buf (buf.length + 1) start []).bind fun cl =>
    let current := cl.1 + 1
    (Bytes.slice buf current (current + 2)).bind fun tb =>
    match tb with
    | [t0, t1] =>
      (QuestionType.fromI16 (i16FromBeBytes t0 t1)).bind fun qt =>
      let current := current + 2
      (Bytes.slice buf current (current + 2)).bind fun cb =>
      match cb with
      | [c0, c1] =>
        .ok (⟨⟨cl.2⟩, qt, i16FromBeBytes c0 c1⟩, current + 2)
      | _ => .err "could not convert slice to array"
    | _ => .err "could not convert slice to array"
  else .err "Buffer to parse question from is empty"
else .err "No null byte in label"

/-- The loop of `parse_questions`: for each of the `num_questions` records,
parse one question at `start` and then **add the returned absolute end
position to `start`** (`start += i` in the source). -/
def parse_questionsGo (buf : List Nat) (n start : Nat)
    (acc : List DnsQuestion) : RResult (List DnsQuestion) :=
match n with
| 0 => .ok acc
| n + 1 =>
  (parse_question buf start).bind fun qi =>
  parse_questionsGo buf n (start + qi.2) (acc ++ [qi.1])

/-- `parse_questions` from `src/dns/question.rs`. -/
def parse_questions (buf : List Nat) (num_questions : Nat) :
    RResult (List DnsQuestion) :=
parse_questionsGo buf num_questions 0 []

/-! ## The answer codec (`src/dns/answer.rs`) -/

/-- Big-endian byte pairs/quads for the fixed-width fields. -/
def u16be (v : Nat) : List Nat := [(v >>> 8) &&& 0xff, v &&& 0xff]

def u32be (v : Nat) : List Nat :=
[(v >>> 24) &&& 0xff, (v >>> 16) &&& 0xff, (v >>> 8) &&& 0xff, v &&& 0xff]

/-- An answer record: name, type, class (`u16`), TTL (`u32`) and opaque
RDATA bytes. -/
structure DnsAnswer : Type where
  name : LabelSet
  qtype : QuestionType
  qclass : Nat
  ttl : Nat
  data : List Nat
deriving DecidableEq, Repr

/-- `DnsAnswer::encode` from `src/dns/answer.rs`: the `LabelSet` codec
output, 2-byte type, 2-byte class, 4-byte TTL, then the 2-byte RDATA length
field computed as `self.data.len() as u16 * 4` (the byte count truncated to
16 bits and multiplied by four, wrapping), then the RDATA bytes. -/
def DnsAnswer.encode (a : DnsAnswer) : RResult (List Nat) :=
(LabelSet.encode a.name).bind fun nb =>
.ok (nb ++ u16be a.qtype.toNum ++ u16be (a.qclass % 65536) ++
  u32be (a.ttl % 4294967296) ++ u16be ((a.data.length % 65536) * 4 % 65536) ++
  a.data)

/-- An answer record set. -/
structure DnsAnswerSet : Type where
  answers : List DnsAnswer
deriving DecidableEq, Repr

/-- The encoding loop of `DnsAnswerSet::encode`: concatenates each
answer's encoding. -/
def DnsAnswerSet.encodeGo (ans : List DnsAnswer) (buf : List Nat) :
    RResult (List Nat) :=
match ans with
| [] => .ok buf
| a :: rest =>
  (DnsAnswer.encode a).bind fun b => DnsAnswerSet.encodeGo rest (buf ++ b)

/-- `DnsAnswerSet::encode` from `src/dns/answer.rs`: first
`ensure!(num_answers == self.answers.len())` (an error on mismatch), then
the concatenation of the answers' encodings. -/
def DnsAnswerSet.encode (s : DnsAnswerSet) (num_answers : Nat) :
    RResult (List Nat) :=
if num_answers = s.answers.length then DnsAnswerSet.encodeGo s.answers []
else .err "num answers doesn't match vec length"

/-! ## Claim theorems -/

/-- C1: the claim says the 2-byte RDATA length field written by
`DnsAnswer::encode` equals the byte length of `self.data`. It does not: the
source computes `self.data.len() as u16 * 4`. For the answer below the
RDATA is the 4 bytes `127 0 0 1`, yet the emitted length field (bytes 11
and 12 of the output) is `0x00 0x10` = 16 = 4 × 4. -/
theorem c1_rdata_length_field_quadrupled :
    DnsAnswer.encode ⟨⟨[[97]]⟩, .A, 1, 0, [127, 0, 0, 1]⟩ =
      .ok [1, 97, 0, 0, 1, 0, 1, 0, 0, 0, 0, 0, 16, 127, 0, 0, 1] ∧
    ([127, 0, 0, 1] : List Nat).length = 4 := by
  exact ⟨rfl, rfl⟩

/-- C2: the claim says `Domain::encode` fails whenever a computed suffix
offset (inserted into the map or emitted in a pointer) exceeds `0x3FFF`.
It does not: `create_and_add_pointer` masks the offset with `0xffff` and
ORs in `0xc000`, so the out-of-range offset `0x4000` is silently mangled
into the pointer bytes `c0 00` (offset 0) with an `ok` result, and encoding
at position `0x4000` happily inserts the out-of-range offset `0x4000` into
the map, also with an `ok` result. -/
theorem c2_offset_overflow_not_rejected :
    (Domain.encode ⟨[[97]]⟩ 0 [([97], 0x4000)]).1 = .ok [0xc0, 0x00] ∧
    (Domain.encode ⟨[[97]]⟩ 0x4000 []).1 = .ok [0, 1, 97, 0, 0] ∧
    (Domain.encode ⟨[[97]]⟩ 0x4000 []).2 = [([97], 0x4000)] := by
  exact ⟨rfl, rfl, rfl⟩

/-- C3: the claim says every primitive reader returns a bounds error as its
`Result` when the requested span runs past the end of the buffer, and does
not panic. In fact every one of them panics: the bounds are checked by the
assertion inside `bytes::Bytes::slice`, which panics rather than returning
`Err`. Below, each reader is applied to a span extending past the end and
each outcome is a panic, not a returned error. -/
theorem c3_readers_panic_on_short_buffer :
    (parse_u8 [] 0).isCrash = true ∧ (parse_u8 [] 0).isErr = false ∧
    (parse_u16 [1] 0).isCrash = true ∧ (parse_u16 [1] 0).isErr = false ∧
    (parse_u32 [1, 2, 3] 0).isCrash = true ∧
    (parse_u32 [1, 2, 3] 0).isErr = false ∧
    (parse_string [0, 3, 97] 0).isCrash = true ∧
    (parse_string [0, 3, 97] 0).isErr = false ∧
    (parse_data [1] 0 2).isCrash = true ∧ (parse_data [1] 0 2).isErr = false := by
  decide

/-- C4 (counterexample): the claim says encoding the domain `google.com`
with an empty label map at position 0 yields the 12 bytes
`06 67 6f 6f 67 6c 65 03 63 6f 6d 00`. The codec taking a label map and a
position is `Domain::encode`, and it does not produce those bytes: it
writes 2-byte length fields and a 2-byte null terminator. -/
theorem c4_domain_encode_google_com_not_twelve_bytes :
    (Domain.encode ⟨[[0x67, 0x6f, 0x6f, 0x67, 0x6c, 0x65], [0x63, 0x6f, 0x6d]]⟩ 0 []).1 ≠
      .ok [0x06, 0x67, 0x6f, 0x6f, 0x67, 0x6c, 0x65, 0x03, 0x63, 0x6f, 0x6d, 0x00] := by
  decide

/-- C4 (amended): the 12-byte sequence
`06 67 6f 6f 67 6c 65 03 63 6f 6d 00` (one length byte per label, one zero
terminator) is produced by `LabelSet::encode`, the compression-free label
codec that takes no label map or position; `Domain::encode` of the same
two labels with an empty label map at position 0 instead yields the 15
bytes `00 06 67 6f 6f 67 6c 65 00 03 63 6f 6d 00 00` (2-byte length fields
and a 2-byte terminator). -/
theorem c4_google_com_two_encodings :
    LabelSet.encode ⟨[[0x67, 0x6f, 0x6f, 0x67, 0x6c, 0x65], [0x63, 0x6f, 0x6d]]⟩ =
      .ok [0x06, 0x67, 0x6f, 0x6f, 0x67, 0x6c, 0x65, 0x03, 0x63, 0x6f, 0x6d, 0x00] ∧
    (Domain.encode ⟨[[0x67, 0x6f, 0x6f, 0x67, 0x6c, 0x65], [0x63, 0x6f, 0x6d]]⟩ 0 []).1 =
      .ok [0x00, 0x06, 0x67, 0x6f, 0x6f, 0x67, 0x6c, 0x65, 0x00, 0x03, 0x63,
        0x6f, 0x6d, 0x00, 0x00] := by
  exact ⟨rfl, rfl⟩

/-- C5: the claim says decoding a record set of declared count N from N
consecutively encoded records decodes each record starting where the
previous one ended and returns all N records. `parse_questions` advances
its cursor with `start += i` where `i` is the **absolute** end position
returned by `parse_question`, so from the third record on the cursor is
wrong. Below, a buffer holding three consecutive 7-byte questions
(`"a"`, type A, class 1) decodes fine with N = 2, but with N = 3 the third
record is sought at offset 7 + 14 = 21 — the end of the 21-byte buffer —
and the indexing `buf[current]` panics instead of returning the three
records. -/
theorem c5_parse_questions_misthreads_cursor :
    parse_questions ([1, 97, 0, 0, 1, 0, 1] ++ [1, 97, 0, 0, 1, 0, 1]) 2 =
      .ok [⟨⟨[[97]]⟩, .A, 1⟩, ⟨⟨[[97]]⟩, .A, 1⟩] ∧
    (parse_questions ([1, 97, 0, 0, 1, 0, 1] ++ [1, 97, 0, 0, 1, 0, 1] ++
      [1, 97, 0, 0, 1, 0, 1]) 3).isCrash = true ∧
    (parse_questions ([1, 97, 0, 0, 1, 0, 1] ++ [1, 97, 0, 0, 1, 0, 1] ++
      [1, 97, 0, 0, 1, 0, 1]) 3).isOk = false := by
  exact ⟨rfl, rfl, rfl⟩

/-- C7: `DnsAnswerSet::encode` fails with an error whenever the declared
count differs from the actual number of answers in the set, for every set
and every mismatched count: the `ensure!` guard runs before anything is
encoded, so nothing is truncated or padded. -/
theorem c7_answer_set_count_mismatch_fails (s : DnsAnswerSet) (n : Nat)
    (h : n ≠ s.answers.length) : (DnsAnswerSet.encode s n).isErr = true := by
  unfold DnsAnswerSet.encode
  rw [if_neg h]
  rfl

/-- Witness for C7 at a concrete input: declared count 1 against an empty
answer set. -/
theorem c7_answer_set_count_mismatch_fails_witness :
    (1 : Nat) ≠ (DnsAnswerSet.mk []).answers.length ∧
    (DnsAnswerSet.encode ⟨[]⟩ 1).isErr = true :=
  ⟨by decide, c7_answer_set_count_mismatch_fails ⟨[]⟩ 1 (by decide)⟩

/-- A successful `parse_u16` implies the two bytes lay inside the buffer. -/
theorem parse_u16_ok_bound {buf : List Nat} {pos : Nat} {z : Nat × Nat}
    (h : parse_u16 buf pos = .ok z) : pos + 2 ≤ buf.length := by
  unfold parse_u16 Bytes.slice at h
  by_cases hc : pos ≤ pos + 2 ∧ pos + 2 ≤ buf.length
  · exact hc.2
  · rw [if_neg hc] at h
    simp [RResult.bind] at h

/-- C8: when `Domain::decode` reads a pointer (a 16-bit value with top two
bits `11`) at the cursor, it looks the masked 14-bit offset up **by value**
among the offsets stored in the label map. If no suffix in the map was
stored at that offset, decoding fails with an error; if one was, the
dot-split labels of the first such suffix (in the modelled map-iteration
order) are appended and the pointer terminates the domain: the cursor lands
exactly two bytes further and no label is read after the pointer (here at
the start of the domain, so the result labels are exactly that suffix's
labels, and the map is unchanged since no local labels precede the
pointer). -/
theorem c8_pointer_terminates_or_fails (buf : List Nat) (pos : Nat)
    (m : LabelMap) (b : Nat) (hb : parse_u16 buf pos = .ok (pos + 2, b))
    (hp : (b >>> 14) &&& 3 = 3) :
    (hmFindByOffset m (b &&& 0x3fff) = none →
      (Domain.decode buf pos m).1.isErr = true) ∧
    (∀ s off, hmFindByOffset m (b &&& 0x3fff) = some (s, off) →
      Domain.decode buf pos m = (.ok (pos + 2, splitDot s), m)) := by
  have hb0 : b ≠ 0 := by
    intro h
    subst h
    simp at hp
  have hfb : LabelByte.from_byte buf pos = .ok .Pointer := by
    unfold LabelByte.from_byte
    rw [hb]
    simp [RResult.bind, hb0, hp]
  constructor
  · intro hnone
    unfold Domain.decode Domain.decodeGo
    rw [hfb, hb]
    simp [hnone, RResult.isErr]
  · intro s off hsome
    unfold Domain.decode Domain.decodeGo
    rw [hfb, hb]
    simp [hsome, updateMapPtr]

/-- Witness for C8: a buffer starting with the pointer `c0 05` and a map
holding the suffix `ab.c` at offset 5; decoding yields the labels
`ab`, `c` with the cursor moved exactly past the pointer. -/
theorem c8_pointer_terminates_or_fails_witness :
    parse_u16 [0xc0, 0x05] 0 = .ok (0 + 2, 0xc005) ∧
    ((0xc005 >>> 14) &&& 3 = 3) ∧
    (hmFindByOffset [([97, 98, 46, 99], 5)] (0xc005 &&& 0x3fff) = none →
      (Domain.decode [0xc0, 0x05] 0 [([97, 98, 46, 99], 5)]).1.isErr = true) ∧
    (∀ s off,
      hmFindByOffset [([97, 98, 46, 99], 5)] (0xc005 &&& 0x3fff) = some (s, off) →
      Domain.decode [0xc0, 0x05] 0 [([97, 98, 46, 99], 5)] =
        (.ok (0 + 2, splitDot s), [([97, 98, 46, 99], 5)])) :=
  ⟨by decide, by decide,
    (c8_pointer_terminates_or_fails [0xc0, 0x05] 0 [([97, 98, 46, 99], 5)]
      0xc005 (by decide) (by decide)).1,
    (c8_pointer_terminates_or_fails [0xc0, 0x05] 0 [([97, 98, 46, 99], 5)]
      0xc005 (by decide) (by decide)).2⟩

/-- Unfolding `hmGet` over a cons cell. -/
theorem hmGet_cons (p : List Nat × Nat) (rest : LabelMap) (k : List Nat) :
    hmGet (p :: rest) k = if p.1 = k then some p.2 else hmGet rest k := by
  unfold hmGet
  by_cases hq : p.1 = k
  · simp [List.find?, hq]
  · simp [List.find?, hq]

theorem hmGet_hmInsert_ne (m : LabelMap) (k : List Nat) (v : Nat)
    (k' : List Nat) (hne : k' ≠ k) :
    hmGet (hmInsert m k v) k' = hmGet m k' := by
  induction m with
  | nil =>
    simp only [hmInsert]
    rw [hmGet_cons]
    simp [Ne.symm hne]
  | cons p rest ih =>
    simp only [hmInsert]
    by_cases hp : p.1 = k
    · rw [if_pos hp, hmGet_cons, hmGet_cons, hp]
      simp [Ne.symm hne]
    · rw [if_neg hp, hmGet_cons, hmGet_cons, ih]

/-- A guarded insert (only performed when the key is absent) leaves every
present binding unchanged. -/
theorem hmGet_guardedInsert (m : LabelMap) (x : List Nat) (off : Nat)
    (k : List Nat) (v : Nat) (hk : hmGet m k = some v) :
    hmGet (if (hmGet m x).isNone then hmInsert m x off else m) k = some v := by
  by_cases hx : (hmGet m x).isNone
  · rw [if_pos hx]
    have hne : k ≠ x := by
      intro h
      subst h
      rw [hk] at hx
      simp at hx
    rw [hmGet_hmInsert_ne m x off k hne]
    exact hk
  · rw [if_neg hx]
    exact hk

/-- The null-terminator map update of `Domain::decode` preserves every
present binding. -/
theorem updateMapNull_preserves (offsets : List (List Nat × Nat))
    (m : LabelMap) (k : List Nat) (v : Nat) (hk : hmGet m k = some v) :
    hmGet (updateMapNull offsets m) k = some v := by
  induction offsets generalizing m with
  | nil => exact hk
  | cons p rest ih =>
    obtain ⟨s, off⟩ := p
    simp only [updateMapNull]
    exact ih _ (hmGet_guardedInsert m _ off k v hk)

/-- The pointer-branch map update of `Domain::decode` preserves every
present binding. -/
theorem updateMapPtr_preserves (offsets : List (List Nat × Nat))
    (dom : List Nat) (m : LabelMap) (k : List Nat) (v : Nat)
    (hk : hmGet m k = some v) :
    hmGet (updateMapPtr offsets dom m) k = some v := by
  induction offsets generalizing m with
  | nil => exact hk
  | cons p rest ih =>
    obtain ⟨s, off⟩ := p
    simp only [updateMapPtr]
    exact ih _ (hmGet_guardedInsert m _ off k v hk)

/-- The encode loop preserves every present binding: its only insertion
site is the cache-miss branch, reached when the suffix key is absent. -/
theorem encodeGo_preserves (rem : List (List Nat)) (pos : Nat)
    (buf : List Nat) (m : LabelMap) (k : List Nat) (v : Nat)
    (hk : hmGet m k = some v) :
    hmGet (Domain.encodeGo rem pos buf m).2 k = some v := by
  induction rem generalizing buf m with
  | nil => exact hk
  | cons l rest ih =>
    simp only [Domain.encodeGo]
    cases hg : hmGet m (joinDot (l :: rest)) with
    | some offset => exact hk
    | none =>
      have hne : k ≠ joinDot (l :: rest) := by
        intro h
        subst h
        rw [hk] at hg
        exact Option.noConfusion hg
      have hk' : hmGet (hmInsert m (joinDot (l :: rest)) (pos + buf.length)) k = some v := by
        rw [hmGet_hmInsert_ne m _ _ k hne]
        exact hk
      by_cases hl : l.length < 0xcfff
      · simp only [if_pos hl]
        exact ih _ _ hk'
      · simp only [if_neg hl]
        exact hk'

/-- The decode loop preserves every present binding: both of its map
updates (`updateMapNull`, `updateMapPtr`) insert only absent keys. -/
theorem decodeGo_preserves (buf : List Nat) (fuel : Nat) (current : Nat)
    (res : List (List Nat)) (offsets : List (List Nat × Nat)) (m : LabelMap)
    (k : List Nat) (v : Nat) (hk : hmGet m k = some v) :
    hmGet (Domain.decodeGo buf fuel current res offsets m).2 k = some v := by
  induction fuel generalizing current res offsets m with
  | zero => exact hk
  | succ fuel ih =>
    simp only [Domain.decodeGo]
    split
    · exact hk
    · exact hk
    · exact updateMapNull_preserves offsets m k v hk
    · split
      · exact hk
      · exact hk
      · split
        · exact hk
        · exact updateMapPtr_preserves offsets _ m k v hk
    · split
      · exact hk
      · exact hk
      · exact ih _ _ _ _ hk

/-- One call of the shared-map codec: a `Domain::encode` at some position
or a `Domain::decode` of some buffer at some position, each threading the
one label map. -/
inductive CodecCall : Type
| enc (d : Domain) (pos : Nat)
| dec (buf : List Nat) (pos : Nat)

/-- Run one call against the shared label map, keeping the updated map. -/
def runCall : CodecCall → LabelMap → LabelMap
| .enc d pos, m => (Domain.encode d pos m).2
| .dec buf pos, m => (Domain.decode buf pos m).2

/-- Run a sequence of encode/decode calls sharing one label map. -/
def runCalls : List CodecCall → LabelMap → LabelMap
| [], m => m
| c :: rest, m => runCalls rest (runCall c m)

/-- C9: across any sequence of `Domain::encode` and `Domain::decode` calls
sharing one label map, once a suffix key is bound to an offset, no later
call changes that binding: encode's only insertion fires on a cache miss
(key absent) and decode's insertions are guarded by an explicit absence
check, so the first-seen offset of every suffix is preserved. -/
theorem c9_first_seen_offset_preserved (calls : List CodecCall)
    (m : LabelMap) (k : List Nat) (v : Nat) (hk : hmGet m k = some v) :
    hmGet (runCalls calls m) k = some v := by
  induction calls generalizing m with
  | nil => exact hk
  | cons c rest ih =>
    cases c with
    | enc d pos => exact ih _ (encodeGo_preserves d.labels pos [] m k v hk)
    | dec buf pos =>
      exact ih _ (decodeGo_preserves buf (buf.length + 1) pos [] [] m k v hk)

/-- Witness for C9: the map initially binds `c` to offset 3; after encoding
`google.com` at position 0 and decoding the produced buffer, the binding of
`c` is still 3. -/
theorem c9_first_seen_offset_preserved_witness :
    hmGet [([99], 3)] [99] = some 3 ∧
    hmGet (runCalls
      [.enc ⟨[[0x67, 0x6f, 0x6f, 0x67, 0x6c, 0x65], [0x63, 0x6f, 0x6d]]⟩ 0,
       .dec [0x00, 0x06, 0x67, 0x6f, 0x6f, 0x67, 0x6c, 0x65, 0x00, 0x03,
         0x63, 0x6f, 0x6d, 0x00, 0x00] 0] [([99], 3)]) [99] = some 3 :=
  ⟨by decide,
    c9_first_seen_offset_preserved _ [([99], 3)] [99] 3 (by decide)⟩

/-- `splitDot` never returns the empty list (Rust `split` always yields at
least one piece). -/
theorem splitDot_ne_nil (s : List Nat) : splitDot s ≠ [] := by
  match s with
  | [] => simp [splitDot]
  | b :: rest =>
    simp only [splitDot]
    split
    · simp
    · split
      · simp
      · simp

/-- Reading the `u16` at a position whose two bytes are known. -/
theorem parse_u16_at (buf : List Nat) (p b0 b1 : Nat)
    (h0 : buf.get? p = some b0) (h1 : buf.get? (p + 1) = some b1) :
    parse_u16 buf p = .ok (p + 2, b0 * 256 + b1) := by
  have hp1 : p + 1 < buf.length := (List.get?_eq_some.mp h1).1
  have hp : p < buf.length := (List.get?_eq_some.mp h0).1
  have hd : buf.drop p = b0 :: b1 :: buf.drop (p + 2) := by
    have e0 : buf[p] = b0 := by
      have h' := List.getElem?_eq_getElem hp
      rw [← List.get?_eq_getElem?, h0] at h'
      exact (Option.some.inj h').symm
    have e1 : buf[p + 1] = b1 := by
      have h' := List.getElem?_eq_getElem hp1
      rw [← List.get?_eq_getElem?, h1] at h'
      exact (Option.some.inj h').symm
    rw [List.drop_eq_getElem_cons hp, List.drop_eq_getElem_cons hp1, e0, e1]
  unfold parse_u16 Bytes.slice
  have hcond : p ≤ p + 2 ∧ p + 2 ≤ buf.length := ⟨by omega, by omega⟩
  rw [if_pos hcond]
  simp [RResult.bind, hd]

/-- The decode loop only ever appends to its label accumulator: a
successful result extends the labels it started from. -/
theorem decodeGo_labels_extend (buf : List Nat) (fuel : Nat) :
    ∀ current res offsets m c R m',
    Domain.decodeGo buf fuel current res offsets m = (.ok (c, R), m') →
    ∃ ext, R = res ++ ext := by
  induction fuel with
  | zero =>
    intro current res offsets m c R m' h
    simp [Domain.decodeGo] at h
  | succ fuel ih =>
    intro current res offsets m c R m' h
    simp only [Domain.decodeGo] at h
    split at h
    · simp at h
    · simp at h
    · simp only [Prod.mk.injEq, RResult.ok.injEq] at h
      exact ⟨[], by rw [← h.1.2, List.append_nil]⟩
    · split at h
      · simp at h
      · simp at h
      · split at h
        · simp at h
        · simp only [Prod.mk.injEq, RResult.ok.injEq] at h
          exact ⟨_, h.1.2.symm⟩
    · split at h
      · simp at h
      · simp at h
      · obtain ⟨ext, hext⟩ := ih _ _ _ _ _ _ _ h
        subst hext
        exact ⟨_, List.append_assoc _ _ _⟩

/-- C10: `Domain::decode` classifies the terminator by reading a full
16-bit value at the cursor (`LabelByte::from_byte` goes through
`parse_u16`), so the `Null` branch is taken only when the two bytes at the
cursor are both zero. Consequently, whenever the accumulated name reaches a
cursor holding a single `0x00` byte that is either the last byte of the
buffer or is followed by a nonzero byte, the decoder does not classify it
as the terminator, and no outcome of the decode loop returns the
accumulated name as the successful result: it either fails (for a trailing
zero byte, the 16-bit read panics past the end) or reads on and can only
ever return a strictly longer label list. -/
theorem c10_null_branch_needs_both_zero_bytes (buf : List Nat) (p : Nat)
    (res : List (List Nat)) (offsets : List (List Nat × Nat)) (m : LabelMap)
    (h0 : buf.get? p = some 0)
    (hnext : p + 1 = buf.length ∨ ∃ d, buf.get? (p + 1) = some d ∧ d ≠ 0) :
    LabelByte.from_byte buf p ≠ .ok .Null ∧
    (∀ fuel c R m', Domain.decodeGo buf fuel p res offsets m = (.ok (c, R), m') →
      R ≠ res) := by
  cases hnext with
  | inl hA =>
    have hpu : parse_u16 buf p = .crash "range out of bounds" := by
      unfold parse_u16 Bytes.slice
      rw [if_neg]
      · rfl
      · intro h
        omega
    have hfb : LabelByte.from_byte buf p = .crash "range out of bounds" := by
      unfold LabelByte.from_byte
      rw [hpu]
      rfl
    constructor
    · rw [hfb]
      simp
    · intro fuel c R m' h
      cases fuel with
      | zero => simp [Domain.decodeGo] at h
      | succ f => simp [Domain.decodeGo, hfb] at h
  | inr hB =>
    obtain ⟨d, hd, hdnz⟩ := hB
    have hpu : parse_u16 buf p = .ok (p + 2, d) := by
      have h' := parse_u16_at buf p 0 d h0 hd
      simpa using h'
    have hfb : LabelByte.from_byte buf p = .ok .Pointer ∨
        LabelByte.from_byte buf p = .ok .Length := by
      unfold LabelByte.from_byte
      rw [hpu]
      simp only [RResult.bind, if_neg hdnz]
      by_cases hptr : (d >>> 14) &&& 3 = 3
      · left
        rw [if_pos hptr]
      · right
        rw [if_neg hptr]
    constructor
    · cases hfb with
      | inl hP =>
        rw [hP]
        simp
      | inr hL =>
        rw [hL]
        simp
    · intro fuel c R m' h
      cases fuel with
      | zero => simp [Domain.decodeGo] at h
      | succ f =>
        cases hfb with
        | inl hP =>
          simp only [Domain.decodeGo, hP, hpu] at h
          split at h
          · simp at h
          · rename_i x dd hfind
            simp only [Prod.mk.injEq, RResult.ok.injEq] at h
            obtain ⟨⟨hc, hRe⟩, hm⟩ := h
            intro hRr
            have hcomb : res ++ splitDot dd.1 = res := hRe.trans hRr
            have hlen := congrArg List.length hcomb
            rw [List.length_append] at hlen
            have hz : (splitDot dd.1).length = 0 := by omega
            exact splitDot_ne_nil dd.1 (List.length_eq_zero.mp hz)
        | inr hL =>
          simp only [Domain.decodeGo, hL] at h
          split at h
          · simp at h
          · simp at h
          · obtain ⟨ext, hext⟩ := decodeGo_labels_extend buf _ _ _ _ _ _ _ _ h
            intro hRr
            rw [hRr] at hext
            have hlen := congrArg List.length hext
            simp [List.length_append] at hlen

/-- Witness for C10: in the buffer `01 61 00` the name `a` ends with a
single zero byte that is the last byte of the buffer; the classifier does
not call it a terminator and no decode outcome returns just `a`. -/
theorem c10_null_branch_needs_both_zero_bytes_witness :
    ([1, 97, 0] : List Nat).get? 2 = some 0 ∧
    (2 + 1 = ([1, 97, 0] : List Nat).length ∨
      ∃ d, ([1, 97, 0] : List Nat).get? (2 + 1) = some d ∧ d ≠ 0) ∧
    (LabelByte.from_byte [1, 97, 0] 2 ≠ .ok .Null ∧
      (∀ fuel c R m',
        Domain.decodeGo [1, 97, 0] fuel 2 [[97]] [([97], 0)] [] =
          (.ok (c, R), m') → R ≠ [[97]])) :=
  ⟨by decide, Or.inl (by decide),
    c10_null_branch_needs_both_zero_bytes [1, 97, 0] 2 [[97]] [([97], 0)] []
      (by decide) (Or.inl (by decide))⟩

/-! ## The encode/decode round trip (claim C6) -/

/-- A lowercase hexadecimal character byte: `0`–`9` or `a`–`f`. -/
def hexLowerByte (b : Nat) : Prop := (48 ≤ b ∧ b ≤ 57) ∨ (97 ≤ b ∧ b ≤ 102)

instance (b : Nat) : Decidable (hexLowerByte b) := by
  unfold hexLowerByte
  infer_instance

/-- A label of 1 to 5 lowercase-hex characters. -/
def goodLabel (l : List Nat) : Prop :=
1 ≤ l.length ∧ l.length ≤ 5 ∧ ∀ b ∈ l, hexLowerByte b

instance (l : List Nat) : Decidable (goodLabel l) := by
  unfold goodLabel
  infer_instance

/-- A domain of 2 to 6 such labels (the population of the claim and of the
repository's quickcheck generator). -/
def goodDomain (d : Domain) : Prop :=
2 ≤ d.labels.length ∧ d.labels.length ≤ 6 ∧ ∀ l ∈ d.labels, goodLabel l

instance (d : Domain) : Decidable (goodDomain d) := by
  unfold goodDomain
  infer_instance

/-- The byte image of a compression-free `Domain::encode` run: a 2-byte
length and the label bytes per label, and the 2-byte null terminator after
the last label. -/
def encBlocks : List (List Nat) → List Nat
| [] => []
| [l] => [0, l.length] ++ l ++ [0, 0]
| l :: rest => ([0, l.length] ++ l) ++ encBlocks rest

/-- All-ASCII byte sequences are valid UTF-8. -/
theorem isUtf8Go_ascii (l : List Nat) (h : ∀ b ∈ l, b < 128) :
    isUtf8Go l 0 0 0 = true := by
  induction l with
  | nil => rfl
  | cons b rest ih =>
    have hb : b < 128 := h b (by simp)
    have hcls : utf8Class b = some (0, 0, 0) := by
      unfold utf8Class
      rw [if_pos hb]
    simp only [isUtf8Go, hcls]
    exact ih (fun x hx => h x (by simp [hx]))

theorem isUtf8_of_ascii (l : List Nat) (h : ∀ b ∈ l, b < 128) :
    isUtf8 l = true :=
  isUtf8Go_ascii l h

theorem hexLowerByte_lt_128 (b : Nat) (h : hexLowerByte b) : b < 128 := by
  rcases h with ⟨_, h2⟩ | ⟨_, h2⟩ <;> omega

/-- The two length bytes the encoder emits for a small label length. -/
theorem lenBytes_small (n : Nat) (h : n ≤ 5) :
    ((n &&& 0xcfff) >>> 8) &&& 0xff = 0 ∧ (n &&& 0xcfff) &&& 0xff = n := by
  interval_cases n <;> exact ⟨rfl, rfl⟩

theorem joinDot_cons_cons (l r : List Nat) (rs : List (List Nat)) :
    joinDot (l :: r :: rs) = l ++ 46 :: joinDot (r :: rs) := rfl

/-- A key different from every key in the map is absent. -/
theorem hmGet_eq_none (m : LabelMap) (k : List Nat)
    (h : ∀ p ∈ m, p.1 ≠ k) : hmGet m k = none := by
  induction m with
  | nil => rfl
  | cons p rest ih =>
    rw [hmGet_cons, if_neg (h p (by simp))]
    exact ih (fun q hq => h q (by simp [hq]))

/-- Entries of `hmInsert m k v` come from `m` or are the new binding. -/
theorem mem_hmInsert (m : LabelMap) (k : List Nat) (v : Nat)
    (q : List Nat × Nat) (h : q ∈ hmInsert m k v) : q ∈ m ∨ q = (k, v) := by
  induction m with
  | nil =>
    simp only [hmInsert, List.mem_singleton] at h
    right
    exact h
  | cons p rest ih =>
    simp only [hmInsert] at h
    by_cases hp : p.1 = k
    · rw [if_pos hp] at h
      rcases List.mem_cons.mp h with h1 | h2
      · right
        exact h1
      · left
        exact List.mem_cons_of_mem _ h2
    · rw [if_neg hp] at h
      rcases List.mem_cons.mp h with h1 | h2
      · left
        simp [h1]
      · rcases ih h2 with ha | hb
        · left
          exact List.mem_cons_of_mem _ ha
        · right
          exact hb

/-- Encoding against a map all of whose keys are strictly longer than the
full remaining suffix never hits the cache, so it emits the plain
length-prefixed blocks with the trailing null. -/
theorem encodeGo_freshMap (rem : List (List Nat)) (pos : Nat) :
    ∀ (buf : List Nat) (m : LabelMap),
    (∀ l ∈ rem, 1 ≤ l.length ∧ l.length ≤ 5) →
    (∀ p ∈ m, (joinDot rem).length < p.1.length) →
    (Domain.encodeGo rem pos buf m).1 = .ok (buf ++ encBlocks rem) := by
  induction rem with
  | nil =>
    intro buf m _ _
    simp only [Domain.encodeGo, encBlocks, List.append_nil]
  | cons l rest ih =>
    intro buf m hgood hminv
    have hget : hmGet m (joinDot (l :: rest)) = none := by
      apply hmGet_eq_none
      intro p hp hk
      have := hminv p hp
      rw [hk] at this
      omega
    have hl := hgood l (by simp)
    have hlen5 : l.length < 0xcfff := by omega
    have hlb := lenBytes_small l.length hl.2
    simp only [Domain.encodeGo, hget, if_pos hlen5]
    rw [hlb.1, hlb.2]
    cases rest with
    | nil =>
      simp [Domain.encodeGo, encBlocks, List.append_assoc]
    | cons r rs =>
      have hstep := ih (buf ++ [0, l.length] ++ l)
        (hmInsert m (joinDot (l :: r :: rs)) (pos + buf.length))
        (fun x hx => hgood x (by simp [hx]))
        (by
          intro p hp
          rcases mem_hmInsert _ _ _ p hp with hold | hnew
          · have h1 := hminv p hold
            rw [joinDot_cons_cons] at h1
            simp only [List.length_append, List.length_cons] at h1
            omega
          · rw [hnew]
            rw [joinDot_cons_cons]
            simp only [List.length_append, List.length_cons]
            omega)
      simp only [if_neg (by simp : ¬(r :: rs = []))]
      rw [show encBlocks (l :: r :: rs) =
        ([0, l.length] ++ l) ++ encBlocks (r :: rs) from rfl]
      simp only [List.append_assoc] at hstep ⊢
      exact hstep

/-- Reading the `u16` sitting immediately after a known prefix. -/
theorem parse_u16_append (pre : List Nat) (b0 b1 : Nat) (tail : List Nat) :
    parse_u16 (pre ++ b0 :: b1 :: tail) pre.length =
      .ok (pre.length + 2, b0 * 256 + b1) := by
  unfold parse_u16 Bytes.slice
  rw [if_pos]
  · rw [show pre.length + 2 - pre.length = 2 from by omega]
    rw [List.drop_left]
    rfl
  · constructor
    · omega
    · simp only [List.length_append, List.length_cons]
      omega

/-- Reading a length-prefixed string sitting immediately after a known
prefix (length written on two bytes, high byte zero). -/
theorem parse_string_append (pre l tail : List Nat)
    (hlen : l.length ≤ 0x3fff) (hutf : isUtf8 l = true) :
    parse_string (pre ++ 0 :: l.length :: (l ++ tail)) pre.length =
      .ok (pre.length + 2 + l.length, l) := by
  unfold parse_string
  rw [parse_u16_append]
  simp only [RResult.bind, Nat.zero_mul, Nat.zero_add]
  rw [if_pos hlen]
  unfold Bytes.slice
  rw [if_pos]
  · rw [show pre.length + 2 + l.length - (pre.length + 2) = l.length from by omega]
    have hd : (pre ++ 0 :: l.length :: (l ++ tail)).drop (pre.length + 2) = l ++ tail := by
      rw [show pre ++ 0 :: l.length :: (l ++ tail) =
        (pre ++ [0, l.length]) ++ (l ++ tail) from by simp]
      rw [show pre.length + 2 = (pre ++ [0, l.length]).length from by simp]
      exact List.drop_left _ _
    rw [hd, List.take_left]
    simp [RResult.bind, hutf]
  · constructor
    · omega
    · simp only [List.length_append, List.length_cons]
      omega

/-- A block list is at least as long (in bytes) as its label count. -/
theorem encBlocks_length_ge (ls : List (List Nat)) :
    ls.length ≤ (encBlocks ls).length := by
  induction ls with
  | nil => simp [encBlocks]
  | cons l rest ih =>
    cases rest with
    | nil => simp [encBlocks]
    | cons r rs =>
      rw [show encBlocks (l :: r :: rs) =
        ([0, l.length] ++ l) ++ encBlocks (r :: rs) from rfl]
      simp only [List.length_append, List.length_cons] at ih ⊢
      omega

/-- Decoding the plain block image of a nonempty label list appends
exactly those labels and consumes the buffer to its end, for any prefix
already consumed, any accumulators and any label map. -/
theorem decodeGo_encBlocks :
    ∀ (rest : List (List Nat)), rest ≠ [] →
    (∀ l ∈ rest, 1 ≤ l.length ∧ l.length ≤ 5 ∧ isUtf8 l = true) →
    ∀ (pre : List Nat) (res : List (List Nat))
      (offsets : List (List Nat × Nat)) (m : LabelMap) (fuel : Nat),
    rest.length < fuel →
    (Domain.decodeGo (pre ++ encBlocks rest) fuel pre.length res offsets m).1 =
      .ok ((pre ++ encBlocks rest).length, res ++ rest) := by
  intro rest
  induction rest with
  | nil => intro h; exact absurd rfl h
  | cons l rest' ih =>
    intro _ hgood pre res offsets m fuel hfuel
    obtain ⟨f, rfl⟩ : ∃ f, fuel = f + 1 := ⟨fuel - 1, by omega⟩
    have hl := hgood l (by simp)
    obtain ⟨tail, htail, htl⟩ :
        ∃ tail, encBlocks (l :: rest') = 0 :: l.length :: (l ++ tail) ∧
          (tail = [0, 0] ∧ rest' = [] ∨ tail = encBlocks rest' ∧ rest' ≠ []) := by
      cases rest' with
      | nil => exact ⟨[0, 0], by simp [encBlocks], Or.inl ⟨rfl, rfl⟩⟩
      | cons r rs => exact ⟨encBlocks (r :: rs), by simp [encBlocks], Or.inr ⟨rfl, by simp⟩⟩
    rw [htail]
    have hpu := parse_u16_append pre 0 l.length (l ++ tail)
    have hfb : LabelByte.from_byte (pre ++ 0 :: l.length :: (l ++ tail)) pre.length =
        .ok .Length := by
      unfold LabelByte.from_byte
      rw [hpu]
      simp only [RResult.bind, Nat.zero_mul, Nat.zero_add]
      rw [if_neg (by omega), if_neg]
      intro hc
      rw [Nat.shiftRight_eq_div_pow] at hc
      rw [Nat.div_eq_of_lt (by omega : l.length < 2 ^ 14)] at hc
      simp at hc
    have hps := parse_string_append pre l tail (by omega) hl.2.2
    simp only [Domain.decodeGo, hfb, hps]
    rcases htl with ⟨htl0, hrest⟩ | ⟨htl0, hrest⟩
    · subst htl0
      subst hrest
      have hf1 : 0 < f := by
        simp only [List.length_cons] at hfuel
        omega
      obtain ⟨g, rfl⟩ : ∃ g, f = g + 1 := ⟨f - 1, by omega⟩
      have hpu2 : parse_u16 ((pre ++ 0 :: l.length :: l) ++ [0, 0])
          (pre ++ 0 :: l.length :: l).length = .ok ((pre ++ 0 :: l.length :: l).length + 2, 0) := by
        have h' := parse_u16_append (pre ++ 0 :: l.length :: l) 0 0 []
        simpa using h'
      have hfb2 : LabelByte.from_byte ((pre ++ 0 :: l.length :: l) ++ [0, 0])
          (pre ++ 0 :: l.length :: l).length = .ok .Null := by
        unfold LabelByte.from_byte
        rw [hpu2]
        rfl
      have hrebuf : pre ++ 0 :: l.length :: (l ++ [0, 0]) =
          (pre ++ 0 :: l.length :: l) ++ [0, 0] := by
        simp
      have hcur : pre.length + 2 + l.length = (pre ++ 0 :: l.length :: l).length := by
        simp only [List.length_append, List.length_cons]
        omega
      rw [hrebuf, hcur]
      simp only [Domain.decodeGo, hfb2]
      simp [List.length_append]
      omega
    · subst htl0
      have hrebuf : pre ++ 0 :: l.length :: (l ++ encBlocks rest') =
          (pre ++ 0 :: l.length :: l) ++ encBlocks rest' := by
        simp
      have hcur : pre.length + 2 + l.length = (pre ++ 0 :: l.length :: l).length := by
        simp only [List.length_append, List.length_cons]
        omega
      rw [hrebuf, hcur]
      have hstep := ih hrest (fun x hx => hgood x (by simp [hx]))
        (pre ++ 0 :: l.length :: l) (res ++ [l]) (offsets ++ [(l, pre.length)]) m f
        (by simp at hfuel ⊢; omega)
      rw [hstep]
      simp

/-- C6: for every `Domain` of 2 to 6 labels, each of 1 to 5 lowercase-hex
characters, encoding at position 0 with a fresh empty label map succeeds,
and decoding the produced buffer at position 0 with a separate fresh empty
label map succeeds and yields exactly the original label sequence (and the
cursor lands at the end of the buffer). -/
theorem c6_domain_roundtrip (d : Domain) (h : goodDomain d) :
    ∃ out, (Domain.encode d 0 []).1 = .ok out ∧
      (Domain.decode out 0 []).1 = .ok (out.length, d.labels) := by
  obtain ⟨h2, h6, hall⟩ := h
  refine ⟨encBlocks d.labels, ?_, ?_⟩
  · have henc := encodeGo_freshMap d.labels 0 [] []
      (fun l hl => ⟨(hall l hl).1, (hall l hl).2.1⟩)
      (by intro p hp; cases hp)
    unfold Domain.encode
    simpa using henc
  · have hne : d.labels ≠ [] := by
      intro hh
      rw [hh] at h2
      simp at h2
    have hlen := encBlocks_length_ge d.labels
    have hdec := decodeGo_encBlocks d.labels hne
      (fun l hl => ⟨(hall l hl).1, (hall l hl).2.1,
        isUtf8_of_ascii l
          (fun b hb => hexLowerByte_lt_128 b ((hall l hl).2.2 b hb))⟩)
      [] [] [] [] ((encBlocks d.labels).length + 1) (by omega)
    unfold Domain.decode
    simpa using hdec

/-- Witness for C6 at a concrete input: the two-label domain `ab.0`. -/
theorem c6_domain_roundtrip_witness :
    goodDomain ⟨[[97, 98], [48]]⟩ ∧
    (∃ out, (Domain.encode ⟨[[97, 98], [48]]⟩ 0 []).1 = .ok out ∧
      (Domain.decode out 0 []).1 = .ok (out.length, [[97, 98], [48]])) :=
  ⟨by decide, c6_domain_roundtrip ⟨[[97, 98], [48]]⟩ (by decide)⟩
